import Mathlib

/-!
# Verification of the split-engine chunking service (`app/main.py`)

Service text (a Python `str`) is modelled as `List Char` — a sequence of
Unicode scalar values — and raw byte strings as `List Nat` with each entry
below 256.  The definitions below are direct translations of the functions in
`app/main.py` together with the Python library primitives they call
(`str.splitlines(keepends=True)`, UTF-8 encode, UTF-8 decode with
`errors="replace"`, `hashlib.sha256`, `os.path.splitext`, `dict` assignment).
-/

set_option maxHeartbeats 1000000
set_option maxRecDepth 8192

/-- Service text: a Python `str` as its list of code points. -/
abbrev Str := List Char

/-- The character list of a string literal (notational helper). -/
def str (s : String) : Str := s.toList

/-- The line-break characters recognised by Python `str.splitlines`:
LF, CR, VT, FF, FS, GS, RS, NEL, LINE SEPARATOR, PARAGRAPH SEPARATOR. -/
def isLineBreakChar (c : Char) : Bool :=
  c = '\n' || c = '\r' || c = '\x0b' || c = '\x0c' || c = '\x1c' ||
  c = '\x1d' || c = '\x1e' || c = '\x85' || c = '\u2028' || c = '\u2029'

/-- Worker for `str.splitlines(keepends=True)`: `acc` holds the (reversed)
characters of the current unfinished line.  A `"\r\n"` pair counts as a
single terminator; every terminator is kept at the end of its line. -/
def splitlinesAux : Str → Str → List Str
  | [], acc => if acc = [] then [] else [acc.reverse]
  | '\r' :: '\n' :: rest, acc => (acc.reverse ++ ['\r', '\n']) :: splitlinesAux rest []
  | c :: rest, acc =>
    if c = '\r' then
      (acc.reverse ++ ['\r']) :: splitlinesAux rest []
    else if isLineBreakChar c then
      (acc.reverse ++ [c]) :: splitlinesAux rest []
    else
      splitlinesAux rest (c :: acc)

/-- Python `text.splitlines(True)`: the lines of `text`, each keeping its
trailing terminator. -/
def splitlinesKeepends (text : Str) : List Str := splitlinesAux text []

/-- Fuel-driven worker for `chunkList` (structural recursion on the fuel so
that the function reduces inside the kernel).  With `n ≠ 0` and fuel at
least the list length the fuel never runs out. -/
def chunkFuel (n : Nat) : Nat → List α → List (List α)
  | _, [] => []
  | 0, _ :: _ => []
  | fuel + 1, x :: xs => ((x :: xs).take n) :: chunkFuel n fuel ((x :: xs).drop n)

/-- Consecutive blocks of at most `n` elements: the Python slice loop
`for i in range(0, len(l), n): l[i:i+n]` (the service never calls it with
`n = 0`; for `n = 0` Python `range` would fail). -/
def chunkList (n : Nat) (l : List α) : List (List α) := chunkFuel n l.length l

/-- `split_by_lines` from `app/main.py`: split the text into lines with kept
terminators, then join each consecutive block of `lines_per_piece` lines
(the Python `for i in range(0, len(lines), lines_per_piece)` slice loop). -/
def split_by_lines (text : Str) (lines_per_piece : Nat) : List Str :=
  (chunkList lines_per_piece (splitlinesKeepends text)).map List.flatten

/-! ## UTF-8 encoding and decoding -/

/-- UTF-8 encoding of a single Unicode scalar value (as its byte list). -/
def utf8EncodeChar (c : Char) : List Nat :=
  let n := c.toNat
  if n < 0x80 then [n]
  else if n < 0x800 then [0xC0 + n / 0x40, 0x80 + n % 0x40]
  else if n < 0x10000 then
    [0xE0 + n / 0x1000, 0x80 + n / 0x40 % 0x40, 0x80 + n % 0x40]
  else
    [0xF0 + n / 0x40000, 0x80 + n / 0x1000 % 0x40, 0x80 + n / 0x40 % 0x40,
      0x80 + n % 0x40]

/-- Python `text.encode("utf-8")`. -/
def utf8Encode (s : Str) : List Nat := (s.map utf8EncodeChar).flatten

/-- Is `b` a UTF-8 continuation byte (`0x80..0xBF`)? -/
def isContByte (b : Nat) : Prop := 0x80 ≤ b ∧ b ≤ 0xBF

instance (b : Nat) : Decidable (isContByte b) := by unfold isContByte; infer_instance

/-- U+FFFD REPLACEMENT CHARACTER. -/
def replacementChar : Char := Char.ofNat 0xFFFD

/-- Python `bytes.decode("utf-8", errors="replace")`: standard UTF-8
decoding; each maximal invalid subpart is replaced by one U+FFFD
(the CPython / WHATWG substitution policy). -/
def decodeUtf8Replace : List Nat → Str
  | [] => []
  | b :: bs =>
    if b < 0x80 then Char.ofNat b :: decodeUtf8Replace bs
    else if b < 0xC2 then
      -- stray continuation byte or overlong lead 0xC0/0xC1
      replacementChar :: decodeUtf8Replace bs
    else if b < 0xE0 then
      match bs with
      | b1 :: bs1 =>
        if isContByte b1 then
          Char.ofNat ((b - 0xC0) * 0x40 + (b1 - 0x80)) :: decodeUtf8Replace bs1
        else replacementChar :: decodeUtf8Replace (b1 :: bs1)
      | [] => [replacementChar]
    else if b < 0xF0 then
      match bs with
      | b1 :: bs1 =>
        if (if b = 0xE0 then 0xA0 else 0x80) ≤ b1 ∧
            b1 ≤ (if b = 0xED then 0x9F else 0xBF) then
          match bs1 with
          | b2 :: bs2 =>
            if isContByte b2 then
              Char.ofNat ((b - 0xE0) * 0x1000 + (b1 - 0x80) * 0x40 + (b2 - 0x80)) ::
                decodeUtf8Replace bs2
            else replacementChar :: decodeUtf8Replace (b2 :: bs2)
          | [] => [replacementChar]
        else replacementChar :: decodeUtf8Replace (b1 :: bs1)
      | [] => [replacementChar]
    else if b < 0xF5 then
      match bs with
      | b1 :: bs1 =>
        if (if b = 0xF0 then 0x90 else 0x80) ≤ b1 ∧
            b1 ≤ (if b = 0xF4 then 0x8F else 0xBF) then
          match bs1 with
          | b2 :: bs2 =>
            if isContByte b2 then
              match bs2 with
              | b3 :: bs3 =>
                if isContByte b3 then
                  Char.ofNat ((b - 0xF0) * 0x40000 + (b1 - 0x80) * 0x1000 +
                      (b2 - 0x80) * 0x40 + (b3 - 0x80)) :: decodeUtf8Replace bs3
                else replacementChar :: decodeUtf8Replace (b3 :: bs3)
              | [] => [replacementChar]
            else replacementChar :: decodeUtf8Replace (b2 :: bs2)
          | [] => [replacementChar]
        else replacementChar :: decodeUtf8Replace (b1 :: bs1)
      | [] => [replacementChar]
    else
      -- invalid lead byte 0xF5..0xFF
      replacementChar :: decodeUtf8Replace bs

/-- `split_by_size` from `app/main.py`: encode to UTF-8, cut the byte string
into consecutive windows of at most `bytes_per_piece` bytes (the Python
`while start < len(b)` loop), decode each window with `errors="replace"`. -/
def split_by_size (text : Str) (bytes_per_piece : Nat) : List Str :=
  (chunkList bytes_per_piece (utf8Encode text)).map decodeUtf8Replace

/-! ## Threshold quantities -/

/-- `total_lines` in the `split` handler: `text.count("\n") + 1`. -/
def totalLines (t : Str) : Nat := t.count '\n' + 1

/-- `total_bytes` in the `split` handler: `len(text.encode("utf-8"))`. -/
def totalBytes (t : Str) : Nat := (utf8Encode t).length

/-! ## SHA-256 (`hashlib.sha256`, FIPS 180-4) over byte lists -/

/-- Reduction modulo `2^32`. -/
def mod32 (x : Nat) : Nat := x % 4294967296

/-- Right-rotation of a 32-bit word. -/
def rotr32 (r x : Nat) : Nat := mod32 (x / 2 ^ r + x * 2 ^ (32 - r))

/-- Logical right shift of a 32-bit word. -/
def shr32 (r x : Nat) : Nat := x / 2 ^ r

/-- Three-way XOR. -/
def xor3 (a b c : Nat) : Nat := Nat.xor a (Nat.xor b c)

def smallSigma0 (x : Nat) : Nat := xor3 (rotr32 7 x) (rotr32 18 x) (shr32 3 x)

def smallSigma1 (x : Nat) : Nat := xor3 (rotr32 17 x) (rotr32 19 x) (shr32 10 x)

def bigSigma0 (x : Nat) : Nat := xor3 (rotr32 2 x) (rotr32 13 x) (rotr32 22 x)

def bigSigma1 (x : Nat) : Nat := xor3 (rotr32 6 x) (rotr32 11 x) (rotr32 25 x)

/-- SHA-256 `Ch(e,f,g) = (e ∧ f) ⊕ (¬e ∧ g)`. -/
def chFn (e f g : Nat) : Nat :=
  Nat.xor (Nat.land e f) (Nat.land (4294967295 - mod32 e) g)

/-- SHA-256 `Maj(a,b,c)`. -/
def majFn (a b c : Nat) : Nat :=
  Nat.xor (Nat.land a b) (Nat.xor (Nat.land a c) (Nat.land b c))

/-- The 64 SHA-256 round constants. -/
def K256 : List Nat :=
  [1116352408, 1899447441, 3049323471, 3921009573, 961987163,
   1508970993, 2453635748, 2870763221, 3624381080, 310598401,
   607225278, 1426881987, 1925078388, 2162078206, 2614888103,
   3248222580, 3835390401, 4022224774, 264347078, 604807628,
   770255983, 1249150122, 1555081692, 1996064986, 2554220882,
   2821834349, 2952996808, 3210313671, 3336571891, 3584528711,
   113926993, 338241895, 666307205, 773529912, 1294757372,
   1396182291, 1695183700, 1986661051, 2177026350, 2456956037,
   2730485921, 2820302411, 3259730800, 3345764771, 3516065817,
   3600352804, 4094571909, 275423344, 430227734, 506948616,
   659060556, 883997877, 958139571, 1322822218, 1537002063,
   1747873779, 1955562222, 2024104815, 2227730452, 2361852424,
   2428436474, 2756734187, 3204031479, 3329325298]

/-- The SHA-256 initial hash state. -/
def sha256Init : List Nat :=
  [1779033703, 3144134277, 1013904242, 2773480762,
   1359893119, 2600822924, 528734635, 1541459225]

/-- Big-endian word from a list of bytes. -/
def wordOfBytes (bs : List Nat) : Nat := bs.foldl (fun acc b => acc * 256 + b) 0

/-- The `k` big-endian bytes of `n`. -/
def beBytes (k n : Nat) : List Nat :=
  (List.range k).map fun i => n / 2 ^ (8 * (k - 1 - i)) % 256

/-- SHA-256 padding: append `0x80`, zero bytes to 56 mod 64, then the
64-bit big-endian bit length. -/
def sha256Pad (msg : List Nat) : List Nat :=
  let L := msg.length
  msg ++ [0x80] ++ List.replicate ((120 - (L + 1) % 64) % 64) 0 ++
    beBytes 8 (8 * L)

/-- One extension step of the SHA-256 message schedule. -/
def scheduleStep (w : List Nat) : List Nat :=
  w ++ [mod32 (smallSigma1 (w.getD (w.length - 2) 0) + w.getD (w.length - 7) 0 +
    smallSigma0 (w.getD (w.length - 15) 0) + w.getD (w.length - 16) 0)]

/-- The 64-word message schedule from the 16 words of a block. -/
def msgSchedule (w16 : List Nat) : List Nat := scheduleStep^[48] w16

/-- One SHA-256 round on the state `[a,b,c,d,e,f,g,h]`. -/
def sha256Round (st : List Nat) (ki wi : Nat) : List Nat :=
  match st with
  | [a, b, c, d, e, f, g, h] =>
    let t1 := mod32 (h + bigSigma1 e + chFn e f g + ki + wi)
    let t2 := mod32 (bigSigma0 a + majFn a b c)
    [mod32 (t1 + t2), a, b, c, mod32 (d + t1), e, f, g]
  | _ => st

/-- SHA-256 compression of one 64-byte block into the hash state. -/
def sha256Compress (hs : List Nat) (block : List Nat) : List Nat :=
  let ws := msgSchedule ((chunkList 4 block).map wordOfBytes)
  let st := (K256.zip ws).foldl (fun st p => sha256Round st p.1 p.2) hs
  List.zipWith (fun x y => mod32 (x + y)) hs st

/-- The 32-byte SHA-256 digest of a byte list. -/
def sha256Digest (msg : List Nat) : List Nat :=
  (((chunkList 64 (sha256Pad msg)).foldl sha256Compress sha256Init).map
    (beBytes 4)).flatten

/-- Lower-case hex digit. -/
def hexDigitChar (n : Nat) : Char :=
  if n < 10 then Char.ofNat (48 + n) else Char.ofNat (87 + n)

/-- Two lower-case hex digits of a byte. -/
def byteToHex (b : Nat) : Str := [hexDigitChar (b / 16), hexDigitChar (b % 16)]

/-- `sha256_bytes` from `app/main.py`: `hashlib.sha256(b).hexdigest()`. -/
def sha256_bytes (b : List Nat) : Str := ((sha256Digest b).map byteToHex).flatten

/-! ## Ingestion (`/upload`) -/

/-- Error kinds surfaced by the handlers (the `HTTPException`s raised in
`app/main.py`, by status/meaning). -/
inductive UploadErr where
  | emptyFile
  | unsupportedType
  | oversizeFile
  | extractorUnavailable
  | parseFailure
deriving DecidableEq, Repr

/-- `ext_of` from `app/main.py`: `os.path.splitext(filename)[1].lower()`.
The extension starts at the last dot, unless every character before that
dot is itself a dot (CPython's leading-dot rule); upload filenames contain
no directory separators.  Lower-casing is ASCII (`Char.toLower`), which
agrees with Python on the ASCII extensions the service recognises. -/
def ext_of (filename : Str) : Str :=
  match filename.reverse.findIdx? (fun c => c == '.') with
  | none => []
  | some r =>
    let i := filename.length - 1 - r
    if (filename.take i).all (fun c => c == '.') then []
    else (filename.drop i).map Char.toLower

/-- The `CAPS` table from `app/main.py` (bytes per extension). -/
def CAPS (ext : Str) : Option Nat :=
  if ext = str ".txt" then some (10 * 1024 * 1024)
  else if ext = str ".srt" then some (10 * 1024 * 1024)
  else if ext = str ".vtt" then some (10 * 1024 * 1024)
  else if ext = str ".docx" then some (25 * 1024 * 1024)
  else if ext = str ".pdf" then some (40 * 1024 * 1024)
  else none

/-- The `SUPPORTED_V01` set from `app/main.py`. -/
def SUPPORTED_V01 (ext : Str) : Bool :=
  ext == str ".txt" || ext == str ".docx" || ext == str ".srt" || ext == str ".vtt"

/-- `enforce_caps` from `app/main.py`. -/
def enforce_caps (ext : Str) (size_bytes : Nat) : Except UploadErr Unit :=
  match CAPS ext with
  | none => .error .unsupportedType
  | some cap =>
    if SUPPORTED_V01 ext = false then .error .unsupportedType
    else if size_bytes > cap then .error .oversizeFile
    else .ok ()

/-- `load_text_from_upload` from `app/main.py`.  The `.txt` branch is the
inlined Python code (`data.decode("utf-8", errors="replace")`); the
`.docx`/`.srt`/`.vtt` branches call format-specific parsing libraries that
the spec (§1, §6) treats as an external collaborator, so they are modelled
by the injected `extract` argument. -/
def load_text_from_upload (extract : Str → List Nat → Except UploadErr Str)
    (filename : Str) (data : List Nat) : Except UploadErr Str :=
  let ext := ext_of filename
  if ext = str ".txt" then .ok (decodeUtf8Replace data)
  else if ext = str ".docx" ∨ ext = str ".srt" ∨ ext = str ".vtt" then
    extract ext data
  else .error .unsupportedType

/-- A registry entry (`app.state.files[fid]`). -/
structure Doc where
  name : Str
  ext : Str
  text : Str
  sha256 : Str
  length_chars : Nat
deriving DecidableEq, Repr

/-- `app.state.files`: a Python dict as an insertion-ordered association
list with unique keys. -/
abbrev Registry := List (Str × Doc)

/-- Python dict assignment `d[k] = v`: replace in place if the key is
present, append otherwise. -/
def dictInsert (k : Str) (v : Doc) (reg : Registry) : Registry :=
  if reg.any (fun p => p.1 == k) then
    reg.map fun p => if p.1 = k then (k, v) else p
  else reg ++ [(k, v)]

/-- Python dict lookup. -/
def lookupReg (reg : Registry) (k : Str) : Option Doc :=
  match reg.find? (fun p => p.1 == k) with
  | some p => some p.2
  | none => none

/-- The JSON body returned by `/upload`. -/
structure UploadResp where
  file_id : Str
  name : Str
  ext : Str
  length_chars : Nat
deriving DecidableEq, Repr

/-- The `/upload` handler from `app/main.py` (its `uploaded_at` timestamp
field is wall-clock time and is not modelled; no claim mentions it).
Returns the response (or error) together with the registry after the
call — on error the registry is returned unchanged, matching the Python
handler which only assigns `app.state.files[fid]` after all checks. -/
def upload (extract : Str → List Nat → Except UploadErr Str)
    (filename : Str) (data : List Nat) (reg : Registry) :
    Except UploadErr UploadResp × Registry :=
  let name := if filename = [] then str "uploaded" else filename
  let ext := ext_of name
  if data = [] then (.error .emptyFile, reg)
  else
    match enforce_caps ext data.length with
    | .error e => (.error e, reg)
    | .ok _ =>
      match load_text_from_upload extract name data with
      | .error e => (.error e, reg)
      | .ok text =>
        let fid := (sha256_bytes data).take 16
        let doc : Doc := ⟨name, ext, text, sha256_bytes data, text.length⟩
        (.ok ⟨fid, name, ext, text.length⟩, dictInsert fid doc reg)

/-! ## Split (`/split`) -/

/-- The recognised keys of the `params` mapping of a split request, after
Python's `int(...)` coercion (the handler reads every parameter through
`int(params.get(key, default))`). -/
structure SplitParams where
  lines : Option Int := none
  bytes : Option Int := none
  default_lines : Option Int := none
  default_bytes : Option Int := none
deriving DecidableEq, Repr

/-- The manifest built by the `split` handler (its `created_at` field is
wall-clock time and is not modelled; no claim mentions it). -/
structure Manifest where
  source_filename : Str
  source_sha256 : Str
  source_length_chars : Nat
  mode : Str
  params : SplitParams
  skipped_reason : Option Str
  pieces : List (Str × Nat)
deriving DecidableEq, Repr

/-- Content of one archive entry: a piece's text, or the manifest
serialised as JSON (`z.writestr` of `json.dumps(manifest)`). -/
inductive EntryContent where
  | text (t : Str)
  | json (m : Manifest)
deriving DecidableEq, Repr

/-- Error kinds of the `split` handler. -/
inductive SplitErr where
  | fileIdNotFound
  | invalidMode
  | invalidParameter
deriving DecidableEq, Repr

/-- What a successful `split` call produces: the pieces, the manifest and
the zip archive (name/content pairs, in `writestr` order). -/
structure SplitOutput where
  pieces : List Str
  manifest : Manifest
  archive : List (Str × EntryContent)
deriving DecidableEq, Repr

/-- Python `f"{n:04d}"` for `n ≥ 0`. -/
def pad4 (n : Nat) : Str :=
  let d := Nat.toDigits 10 n
  List.replicate (4 - d.length) '0' ++ d

/-- The archive entry name `piece_<4-digit index>.txt`. -/
def pieceName (i : Nat) : Str := str "piece_" ++ pad4 i ++ str ".txt"

/-- The archive entry name `manifest.json`. -/
def manifestName : Str := str "manifest.json"

/-- The `skipped_reason` message. -/
def belowThresholdMsg : Str := str "file below minimum threshold for selected mode"

/-- Global defaults from `app/main.py`. -/
def DEFAULT_LINES : Int := 250

def DEFAULT_BYTES : Int := 200000

def MIN_MULTIPLIER : Int := 2

/-- The manifest + archive assembled by the non-skip path of the `split`
handler from the chunker's pieces. -/
def buildOutput (meta : Doc) (m : Str) (params : SplitParams)
    (pieces : List Str) : SplitOutput :=
  let manifest : Manifest :=
    { source_filename := meta.name, source_sha256 := meta.sha256,
      source_length_chars := meta.text.length, mode := m, params := params,
      skipped_reason := none,
      pieces := pieces.enum.map fun p => (pad4 (p.1 + 1), p.2.length) }
  { pieces := pieces, manifest := manifest,
    archive := (pieces.enum.map fun p => (pieceName (p.1 + 1), EntryContent.text p.2))
      ++ [(manifestName, EntryContent.json manifest)] }

/-- The `/split` handler from `app/main.py`. -/
def splitEndpoint (reg : Registry) (file_id : Option Str) (mode : Option Str)
    (params : SplitParams) : Except SplitErr SplitOutput :=
  match file_id with
  | none => .error .fileIdNotFound
  | some fid =>
    -- `if not fid or fid not in app.state.files` (empty string is falsy)
    if fid = [] then .error .fileIdNotFound
    else
      match lookupReg reg fid with
      | none => .error .fileIdNotFound
      | some meta =>
        match mode with
        | none => .error .invalidMode
        | some m =>
          if ¬ (m = str "lines" ∨ m = str "size") then .error .invalidMode
          else
            let text := meta.text
            let lines_default : Int := params.default_lines.getD DEFAULT_LINES
            let bytes_default : Int := params.default_bytes.getD DEFAULT_BYTES
            let too_small_for_lines :=
              (totalLines text : Int) < MIN_MULTIPLIER * lines_default
            let too_small_for_size :=
              (totalBytes text : Int) < MIN_MULTIPLIER * bytes_default
            if (m = str "lines" ∧ too_small_for_lines) ∨
                (m = str "size" ∧ too_small_for_size) then
              let manifest : Manifest :=
                { source_filename := meta.name, source_sha256 := meta.sha256,
                  source_length_chars := text.length, mode := m, params := params,
                  skipped_reason := some belowThresholdMsg,
                  pieces := [(pad4 1, text.length)] }
              .ok { pieces := [text], manifest := manifest,
                    archive := [(pieceName 1, EntryContent.text text),
                      (manifestName, EntryContent.json manifest)] }
            else
              if m = str "lines" then
                let n : Int := params.lines.getD DEFAULT_LINES
                if n ≤ 0 then .error .invalidParameter
                else .ok (buildOutput meta m params (split_by_lines text n.toNat))
              else
                let sz : Int := params.bytes.getD DEFAULT_BYTES
                if sz ≤ 0 then .error .invalidParameter
                else .ok (buildOutput meta m params (split_by_size text sz.toNat))

/-- Decidable equality for `Except` results (needed to evaluate concrete
endpoint calls). -/
instance {e a : Type _} [DecidableEq e] [DecidableEq a] :
    DecidableEq (Except e a) := fun x y =>
  match x, y with
  | .error u, .error v =>
    if h : u = v then .isTrue (congrArg Except.error h)
    else .isFalse fun hc => h (Except.error.inj hc)
  | .ok u, .ok v =>
    if h : u = v then .isTrue (congrArg Except.ok h)
    else .isFalse fun hc => h (Except.ok.inj hc)
  | .error _, .ok _ => .isFalse fun hc => Except.noConfusion hc
  | .ok _, .error _ => .isFalse fun hc => Except.noConfusion hc

/-- Modelled from the spec (claim C9's reading): the "count of
line-terminators in `text`" under "the same notion of line-terminator as
the line-preserving split used by the chunker", i.e. the `str.splitlines`
terminator set with `"\r\n"` counting as a single terminator. -/
def specLineTerminatorCount : Str → Nat
  | [] => 0
  | '\r' :: '\n' :: rest => specLineTerminatorCount rest + 1
  | c :: rest => (if isLineBreakChar c then 1 else 0) + specLineTerminatorCount rest

/-- Byte position `i` is a character boundary of the UTF-8 encoding of `s`:
some prefix of `s` encodes to exactly `i` bytes. -/
def IsCharBoundary (s : Str) (i : Nat) : Prop :=
  ∃ a b : Str, s = a ++ b ∧ (utf8Encode a).length = i

/-! ## Basic lemmas about the chunkers -/

/-- Induction on the length of a list. -/
theorem listLengthInduction {α} (P : List α → Prop)
    (step : ∀ l, (∀ l', l'.length < l.length → P l') → P l) : ∀ l, P l := by
  intro l
  generalize hk : l.length = k
  induction k using Nat.strong_induction_on generalizing l with
  | _ k ih =>
    subst hk
    exact step l fun l' hl => ih l'.length hl l' rfl

theorem chunkFuel_fuel_irrel (n : Nat) (hn : n ≠ 0) :
    ∀ (fuel₁ fuel₂ : Nat) (l : List α), l.length ≤ fuel₁ → l.length ≤ fuel₂ →
      chunkFuel n fuel₁ l = chunkFuel n fuel₂ l := by
  intro fuel₁
  induction fuel₁ with
  | zero =>
    intro fuel₂ l h1 _
    have : l = [] := List.length_eq_zero.mp (Nat.le_zero.mp h1)
    subst this
    cases fuel₂ <;> rfl
  | succ f ih =>
    intro fuel₂ l h1 h2
    cases l with
    | nil => cases fuel₂ <;> rfl
    | cons x xs =>
      cases fuel₂ with
      | zero => simp at h2
      | succ g =>
        simp only [chunkFuel]
        congr 1
        apply ih
        · simp only [List.length_drop, List.length_cons]
          simp only [List.length_cons] at h1
          omega
        · simp only [List.length_drop, List.length_cons]
          simp only [List.length_cons] at h2
          omega

@[simp] theorem chunkList_nil (n : Nat) : chunkList n ([] : List α) = [] := rfl

theorem chunkList_cons (n : Nat) (hn : n ≠ 0) (l : List α) (hl : l ≠ []) :
    chunkList n l = l.take n :: chunkList n (l.drop n) := by
  obtain ⟨x, xs, rfl⟩ := List.exists_cons_of_ne_nil hl
  show chunkFuel n (xs.length + 1) (x :: xs) = _
  rw [chunkFuel]
  congr 1
  apply chunkFuel_fuel_irrel n hn
  · simp only [List.length_drop, List.length_cons]
    omega
  · exact Nat.le_refl _


theorem splitlinesAux_flatten (s acc : Str) :
    (splitlinesAux s acc).flatten = acc.reverse ++ s := by
  induction s, acc using splitlinesAux.induct <;>
    simp_all [splitlinesAux]

theorem splitlinesKeepends_flatten (t : Str) :
    (splitlinesKeepends t).flatten = t := by
  simpa using splitlinesAux_flatten t []

theorem chunkList_flatten (n : Nat) (hn : n ≠ 0) :
    ∀ l : List α, (chunkList n l).flatten = l := by
  apply listLengthInduction
  intro l ih
  cases l with
  | nil => rfl
  | cons x xs =>
    rw [chunkList_cons n hn _ (by simp), List.flatten_cons]
    rw [ih ((x :: xs).drop n)
      (by simp only [List.length_drop, List.length_cons]; omega)]
    exact List.take_append_drop n (x :: xs)

theorem splitlinesAux_mem_ne_nil (s acc : Str) :
    ∀ l ∈ splitlinesAux s acc, l ≠ [] := by
  induction s, acc using splitlinesAux.induct <;> simp_all [splitlinesAux]

theorem splitlinesAux_ne_nil (s acc : Str) (h : s ≠ [] ∨ acc ≠ []) :
    splitlinesAux s acc ≠ [] := by
  induction s, acc using splitlinesAux.induct <;> simp_all [splitlinesAux]

theorem splitlinesKeepends_ne_nil (t : Str) (h : t ≠ []) :
    splitlinesKeepends t ≠ [] :=
  splitlinesAux_ne_nil t [] (Or.inl h)

theorem chunkList_ne_nil (n : Nat) (hn : n ≠ 0) (l : List α) (hl : l ≠ []) :
    chunkList n l ≠ [] := by
  rw [chunkList_cons n hn l hl]
  simp

theorem chunkList_mem (n : Nat) (hn : n ≠ 0) :
    ∀ l : List α, ∀ g ∈ chunkList n l, g ≠ [] ∧ g.length ≤ n ∧ ∀ x ∈ g, x ∈ l := by
  apply listLengthInduction
  intro l ih g hg
  cases l with
  | nil => simp at hg
  | cons x xs =>
    rw [chunkList_cons n hn _ (by simp)] at hg
    rcases List.mem_cons.mp hg with rfl | hg'
    · refine ⟨?_, ?_, fun y hy => List.mem_of_mem_take hy⟩
      · cases n with
        | zero => exact absurd rfl hn
        | succ m => simp
      · simp only [List.length_take]
        exact Nat.min_le_left _ _
    · have hlt : ((x :: xs).drop n).length < (x :: xs).length := by
        simp only [List.length_drop, List.length_cons]
        omega
      obtain ⟨h1, h2, h3⟩ := ih _ hlt g hg'
      exact ⟨h1, h2, fun y hy => List.drop_subset _ _ (h3 y hy)⟩

theorem chunkList_dropLast_length (n : Nat) (hn : n ≠ 0) :
    ∀ l : List α, ∀ g ∈ (chunkList n l).dropLast, g.length = n := by
  apply listLengthInduction
  intro l ih g hg
  cases l with
  | nil => simp at hg
  | cons x xs =>
    rw [chunkList_cons n hn _ (by simp)] at hg
    by_cases hd : (x :: xs).drop n = []
    · rw [hd] at hg
      simp at hg
    · have hne : chunkList n ((x :: xs).drop n) ≠ [] :=
        chunkList_ne_nil n hn _ hd
      rw [List.dropLast_cons_of_ne_nil hne] at hg
      rcases List.mem_cons.mp hg with rfl | hg'
      · have hlen : n < (x :: xs).length := by
          by_contra hle
          exact hd (List.drop_eq_nil_of_le (by omega))
        simp only [List.length_take]
        omega
      · exact ih _ (by simp only [List.length_drop, List.length_cons]; omega) g hg'

/-! ## Step lemmas for `splitlinesAux` on symbolic tails -/

theorem splitlinesAux_cons_nonbreak (c : Char) (s acc : Str)
    (hr : c ≠ '\r') (hb : isLineBreakChar c = false) :
    splitlinesAux (c :: s) acc = splitlinesAux s (c :: acc) := by
  cases s with
  | nil => simp [splitlinesAux, hr, hb]
  | cons d s' => simp [splitlinesAux, hr, hb]

theorem splitlinesAux_cons_newline (s acc : Str) :
    splitlinesAux ('\n' :: s) acc = (acc.reverse ++ ['\n']) :: splitlinesAux s [] := by
  cases s with
  | nil => simp [splitlinesAux, isLineBreakChar]
  | cons d s' => simp [splitlinesAux, isLineBreakChar]

theorem splitlines_flatten_replicate (k : Nat) :
    splitlinesKeepends ((List.replicate k (str "x\n")).flatten)
      = List.replicate k (str "x\n") := by
  induction k with
  | zero => rfl
  | succ m ih =>
    have hx : str "x\n" = ['x', '\n'] := rfl
    rw [List.replicate_succ, List.flatten_cons, hx]
    show splitlinesAux ('x' :: '\n' :: (List.replicate m (str "x\n")).flatten) [] = _
    rw [splitlinesAux_cons_nonbreak 'x' _ [] (by decide) (by decide),
      splitlinesAux_cons_newline]
    rw [splitlinesKeepends] at ih
    rw [ih, hx]
    rfl

/-! ## Non-emptiness of encoded/decoded fragments -/

theorem utf8EncodeChar_ne_nil (c : Char) : utf8EncodeChar c ≠ [] := by
  unfold utf8EncodeChar
  dsimp only
  split_ifs <;> simp

theorem utf8Encode_ne_nil (t : Str) (h : t ≠ []) : utf8Encode t ≠ [] := by
  cases t with
  | nil => exact absurd rfl h
  | cons c cs =>
    simp only [utf8Encode, List.map_cons, List.flatten_cons, ne_eq,
      List.append_eq_nil]
    intro hc
    exact utf8EncodeChar_ne_nil c hc.1

theorem decodeUtf8Replace_ne_nil (bs : List Nat) (h : bs ≠ []) :
    decodeUtf8Replace bs ≠ [] := by
  cases bs with
  | nil => exact absurd rfl h
  | cons b rest =>
    rw [decodeUtf8Replace.eq_def]
    repeat' split
    all_goals simp_all

theorem flatten_ne_nil_of_head (g : List Str) (hg : g ≠ [])
    (hmem : ∀ x ∈ g, x ≠ []) : g.flatten ≠ [] := by
  intro hflat
  obtain ⟨x, xs, rfl⟩ := List.exists_cons_of_ne_nil hg
  exact hmem x (List.mem_cons_self x xs) (List.flatten_eq_nil_iff.mp hflat x
    (List.mem_cons_self x xs))

/-! ## The 1000-line scenario -/

theorem chunkList_replicate_step (l : Str) (m : Nat) (hm : 300 ≤ m) :
    chunkList 300 (List.replicate m l)
      = List.replicate 300 l :: chunkList 300 (List.replicate (m - 300) l) := by
  rw [chunkList_cons 300 (by decide) _
    (List.ne_nil_of_length_pos (by simp; omega))]
  rw [List.take_replicate, List.drop_replicate, Nat.min_eq_left hm]

theorem chunkList_replicate_small (l : Str) (m : Nat) (h0 : 0 < m)
    (hm : m ≤ 300) :
    chunkList 300 (List.replicate m l) = [List.replicate m l] := by
  rw [chunkList_cons 300 (by decide) _
    (List.ne_nil_of_length_pos (by simp; omega))]
  rw [List.take_replicate, List.drop_replicate, Nat.min_eq_right hm]
  have : m - 300 = 0 := by omega
  rw [this]
  rfl

theorem chunkList_replicate_1000 (l : Str) :
    chunkList 300 (List.replicate 1000 l)
      = [List.replicate 300 l, List.replicate 300 l, List.replicate 300 l,
         List.replicate 100 l] := by
  rw [chunkList_replicate_step l 1000 (by omega)]
  rw [show (1000 - 300 : Nat) = 700 from rfl,
    chunkList_replicate_step l 700 (by omega)]
  rw [show (700 - 300 : Nat) = 400 from rfl,
    chunkList_replicate_step l 400 (by omega)]
  rw [show (400 - 300 : Nat) = 100 from rfl,
    chunkList_replicate_small l 100 (by omega) (by omega)]

theorem totalLines_text1000 :
    totalLines ((List.replicate 1000 (str "x\n")).flatten) = 1001 := by
  unfold totalLines
  rw [List.count_flatten, List.map_replicate]
  have h1 : List.count '\n' (str "x\n") = 1 := by decide
  rw [h1, List.sum_replicate, smul_eq_mul]

/-! ## Claim theorems: the chunkers -/

/-- **C1**: for every text `T` and every positive integer `n`, concatenating
the pieces returned by `split_by_lines T n` in index order yields `T`
exactly. -/
theorem C1_splitByLines_lossless (t : Str) (n : Nat) (hn : 0 < n) :
    (split_by_lines t n).flatten = t := by
  unfold split_by_lines
  rw [← List.flatten_flatten, chunkList_flatten n (by omega),
    splitlinesKeepends_flatten]

/-- Witness for C1 at `t = "ab\ncd\ne"`, `n = 2`. -/
theorem C1_witness :
    0 < 2 ∧ (split_by_lines (str "ab\ncd\ne") 2).flatten = str "ab\ncd\ne" :=
  ⟨by decide, C1_splitByLines_lossless (str "ab\ncd\ne") 2 (by decide)⟩

/-- **C5**: for every text and positive `n`, `split_by_lines` partitions the
text's terminator-kept lines into consecutive groups of at most `n` lines,
all groups except possibly the last having exactly `n`; and the 1000-line
scenario (`1000` lines `"x\n"`, `lines = 300`) yields exactly 4 pieces with
line counts 300, 300, 300, 100, the text passing the `defaultLines = 250`
threshold (`2 * 250 ≤ totalLines`). -/
theorem C5_splitByLines_partition (t : Str) (n : Nat) (hn : 0 < n) :
    split_by_lines t n = (chunkList n (splitlinesKeepends t)).map List.flatten ∧
    (chunkList n (splitlinesKeepends t)).flatten = splitlinesKeepends t ∧
    (∀ g ∈ chunkList n (splitlinesKeepends t), g.length ≤ n) ∧
    (∀ g ∈ (chunkList n (splitlinesKeepends t)).dropLast, g.length = n) ∧
    (split_by_lines ((List.replicate 1000 (str "x\n")).flatten) 300).map
        (fun p => (splitlinesKeepends p).length) = [300, 300, 300, 100] ∧
    2 * 250 ≤ totalLines ((List.replicate 1000 (str "x\n")).flatten) := by
  refine ⟨rfl, chunkList_flatten n (by omega) _,
    fun g hg => (chunkList_mem n (by omega) _ g hg).2.1,
    fun g hg => chunkList_dropLast_length n (by omega) _ g hg, ?_, ?_⟩
  · unfold split_by_lines
    rw [splitlines_flatten_replicate, chunkList_replicate_1000]
    simp only [List.map_cons, List.map_nil]
    rw [splitlines_flatten_replicate, splitlines_flatten_replicate]
    simp only [List.length_replicate]
  · rw [totalLines_text1000]
    omega

/-- Witness for C5 at `t = "a\nb"`, `n = 2`. -/
theorem C5_witness :
    0 < 2 ∧
    (split_by_lines (str "a\nb") 2
        = (chunkList 2 (splitlinesKeepends (str "a\nb"))).map List.flatten ∧
      (chunkList 2 (splitlinesKeepends (str "a\nb"))).flatten
        = splitlinesKeepends (str "a\nb") ∧
      (∀ g ∈ chunkList 2 (splitlinesKeepends (str "a\nb")), g.length ≤ 2) ∧
      (∀ g ∈ (chunkList 2 (splitlinesKeepends (str "a\nb"))).dropLast,
        g.length = 2) ∧
      (split_by_lines ((List.replicate 1000 (str "x\n")).flatten) 300).map
          (fun p => (splitlinesKeepends p).length) = [300, 300, 300, 100] ∧
      2 * 250 ≤ totalLines ((List.replicate 1000 (str "x\n")).flatten)) :=
  ⟨by decide, C5_splitByLines_partition (str "a\nb") 2 (by decide)⟩

/-- **C6**: for every non-empty text and positive chunk parameter, both
chunkers return at least one piece and never an empty piece. -/
theorem C6_no_empty_pieces (t : Str) (n : Nat) (ht : t ≠ []) (hn : 0 < n) :
    split_by_lines t n ≠ [] ∧ (∀ p ∈ split_by_lines t n, p ≠ []) ∧
    split_by_size t n ≠ [] ∧ (∀ p ∈ split_by_size t n, p ≠ []) := by
  refine ⟨?_, ?_, ?_, ?_⟩
  · unfold split_by_lines
    simp only [ne_eq, List.map_eq_nil_iff]
    exact chunkList_ne_nil n (by omega) _ (splitlinesKeepends_ne_nil t ht)
  · intro p hp
    unfold split_by_lines at hp
    obtain ⟨g, hg, rfl⟩ := List.mem_map.mp hp
    obtain ⟨hg1, _, hg3⟩ := chunkList_mem n (by omega) _ g hg
    exact flatten_ne_nil_of_head g hg1 fun x hx =>
      splitlinesAux_mem_ne_nil t [] x (hg3 x hx)
  · unfold split_by_size
    simp only [ne_eq, List.map_eq_nil_iff]
    exact chunkList_ne_nil n (by omega) _ (utf8Encode_ne_nil t ht)
  · intro p hp
    unfold split_by_size at hp
    obtain ⟨g, hg, rfl⟩ := List.mem_map.mp hp
    obtain ⟨hg1, _, _⟩ := chunkList_mem n (by omega) _ g hg
    exact decodeUtf8Replace_ne_nil g hg1

/-- Witness for C6 at `t = "hi"`, `n = 1`. -/
theorem C6_witness :
    (str "hi" ≠ [] ∧ 0 < 1) ∧
    (split_by_lines (str "hi") 1 ≠ [] ∧
      (∀ p ∈ split_by_lines (str "hi") 1, p ≠ []) ∧
      split_by_size (str "hi") 1 ≠ [] ∧
      (∀ p ∈ split_by_size (str "hi") 1, p ≠ [])) :=
  ⟨⟨by decide, by decide⟩, C6_no_empty_pieces (str "hi") 1 (by decide) (by decide)⟩

/-! ## UTF-8 round trip on valid scalar values -/

theorem char_valid_nat (c : Char) :
    c.toNat < 0xd800 ∨ (0xdfff < c.toNat ∧ c.toNat < 0x110000) := by
  rcases c.valid with h | ⟨h1, h2⟩
  · left
    exact h
  · right
    exact ⟨h1, h2⟩

theorem decode_one (b : Nat) (rest : List Nat) (h : b < 0x80) :
    decodeUtf8Replace (b :: rest) = Char.ofNat b :: decodeUtf8Replace rest := by
  rw [decodeUtf8Replace.eq_def]
  try dsimp only
  rw [if_pos h]

theorem decode_two (b b1 : Nat) (rest : List Nat)
    (h1 : 0xC2 ≤ b) (h2 : b ≤ 0xDF) (hc : isContByte b1) :
    decodeUtf8Replace (b :: b1 :: rest)
      = Char.ofNat ((b - 0xC0) * 0x40 + (b1 - 0x80)) :: decodeUtf8Replace rest := by
  rw [decodeUtf8Replace.eq_def]
  try dsimp only
  rw [if_neg (by omega), if_neg (by omega), if_pos (by omega)]
  try dsimp only
  rw [if_pos hc]

theorem decode_three (b b1 b2 : Nat) (rest : List Nat)
    (h1 : 0xE0 ≤ b) (h2 : b ≤ 0xEF)
    (hlo : (if b = 0xE0 then 0xA0 else 0x80) ≤ b1)
    (hhi : b1 ≤ (if b = 0xED then 0x9F else 0xBF))
    (hc2 : isContByte b2) :
    decodeUtf8Replace (b :: b1 :: b2 :: rest)
      = Char.ofNat ((b - 0xE0) * 0x1000 + (b1 - 0x80) * 0x40 + (b2 - 0x80)) ::
        decodeUtf8Replace rest := by
  rw [decodeUtf8Replace.eq_def]
  try dsimp only
  rw [if_neg (by omega), if_neg (by omega), if_neg (by omega), if_pos (by omega)]
  try dsimp only
  rw [if_pos ⟨hlo, hhi⟩]
  try dsimp only
  rw [if_pos hc2]

theorem decode_four (b b1 b2 b3 : Nat) (rest : List Nat)
    (h1 : 0xF0 ≤ b) (h2 : b ≤ 0xF4)
    (hlo : (if b = 0xF0 then 0x90 else 0x80) ≤ b1)
    (hhi : b1 ≤ (if b = 0xF4 then 0x8F else 0xBF))
    (hc2 : isContByte b2) (hc3 : isContByte b3) :
    decodeUtf8Replace (b :: b1 :: b2 :: b3 :: rest)
      = Char.ofNat ((b - 0xF0) * 0x40000 + (b1 - 0x80) * 0x1000 +
          (b2 - 0x80) * 0x40 + (b3 - 0x80)) :: decodeUtf8Replace rest := by
  rw [decodeUtf8Replace.eq_def]
  try dsimp only
  rw [if_neg (by omega), if_neg (by omega), if_neg (by omega),
    if_neg (by omega), if_pos (by omega)]
  try dsimp only
  rw [if_pos ⟨hlo, hhi⟩]
  try dsimp only
  rw [if_pos hc2]
  try dsimp only
  rw [if_pos hc3]

theorem decode_utf8EncodeChar (c : Char) (rest : List Nat) :
    decodeUtf8Replace (utf8EncodeChar c ++ rest) = c :: decodeUtf8Replace rest := by
  have hv := char_valid_nat c
  rcases Nat.lt_or_ge c.toNat 0x80 with h1 | h1
  · have he : utf8EncodeChar c = [c.toNat] := by
      unfold utf8EncodeChar
      try dsimp only
      rw [if_pos h1]
    rw [he, List.singleton_append, decode_one _ _ h1, Char.ofNat_toNat]
  · rcases Nat.lt_or_ge c.toNat 0x800 with h2 | h2
    · have he : utf8EncodeChar c
          = [0xC0 + c.toNat / 0x40, 0x80 + c.toNat % 0x40] := by
        unfold utf8EncodeChar
        try dsimp only
        rw [if_neg (by omega), if_pos h2]
      rw [he]
      show decodeUtf8Replace (_ :: _ :: rest) = _
      rw [decode_two _ _ _ (by omega) (by omega) (by unfold isContByte; omega)]
      have hval : (0xC0 + c.toNat / 0x40 - 0xC0) * 0x40 +
          (0x80 + c.toNat % 0x40 - 0x80) = c.toNat := by omega
      rw [hval, Char.ofNat_toNat]
    · rcases Nat.lt_or_ge c.toNat 0x10000 with h3 | h3
      · have he : utf8EncodeChar c
            = [0xE0 + c.toNat / 0x1000, 0x80 + c.toNat / 0x40 % 0x40,
               0x80 + c.toNat % 0x40] := by
          unfold utf8EncodeChar
          try dsimp only
          rw [if_neg (by omega), if_neg (by omega), if_pos h3]
        rw [he]
        show decodeUtf8Replace (_ :: _ :: _ :: rest) = _
        rw [decode_three _ _ _ _ (by omega) (by omega)
          (by split <;> omega) (by split <;> omega)
          (by unfold isContByte; omega)]
        have hval : (0xE0 + c.toNat / 0x1000 - 0xE0) * 0x1000 +
            (0x80 + c.toNat / 0x40 % 0x40 - 0x80) * 0x40 +
            (0x80 + c.toNat % 0x40 - 0x80) = c.toNat := by omega
        rw [hval, Char.ofNat_toNat]
      · have h4 : c.toNat < 0x110000 := by omega
        have he : utf8EncodeChar c
            = [0xF0 + c.toNat / 0x40000, 0x80 + c.toNat / 0x1000 % 0x40,
               0x80 + c.toNat / 0x40 % 0x40, 0x80 + c.toNat % 0x40] := by
          unfold utf8EncodeChar
          try dsimp only
          rw [if_neg (by omega), if_neg (by omega), if_neg (by omega)]
        rw [he]
        show decodeUtf8Replace (_ :: _ :: _ :: _ :: rest) = _
        rw [decode_four _ _ _ _ _ (by omega) (by omega)
          (by split <;> omega) (by split <;> omega)
          (by unfold isContByte; omega) (by unfold isContByte; omega)]
        have hval : (0xF0 + c.toNat / 0x40000 - 0xF0) * 0x40000 +
            (0x80 + c.toNat / 0x1000 % 0x40 - 0x80) * 0x1000 +
            (0x80 + c.toNat / 0x40 % 0x40 - 0x80) * 0x40 +
            (0x80 + c.toNat % 0x40 - 0x80) = c.toNat := by omega
        rw [hval, Char.ofNat_toNat]

theorem decode_utf8Encode_append (s : Str) :
    ∀ rest : List Nat, decodeUtf8Replace (utf8Encode s ++ rest)
      = s ++ decodeUtf8Replace rest := by
  induction s with
  | nil => intro rest; rfl
  | cons c cs ih =>
    intro rest
    show decodeUtf8Replace ((utf8EncodeChar c ++ utf8Encode cs) ++ rest) = _
    rw [List.append_assoc, decode_utf8EncodeChar, ih]
    rfl

theorem decode_utf8Encode (s : Str) : decodeUtf8Replace (utf8Encode s) = s := by
  have := decode_utf8Encode_append s []
  simpa [decodeUtf8Replace] using this

/-! ## Claim C3: size-mode losslessness at character boundaries -/

theorem utf8Encode_append (a b : Str) :
    utf8Encode (a ++ b) = utf8Encode a ++ utf8Encode b := by
  simp [utf8Encode]

theorem isCharBoundary_shift (s1 s2 : Str) (sz i : Nat)
    (hs1 : (utf8Encode s1).length = sz)
    (hb : IsCharBoundary (s1 ++ s2) (sz + i)) : IsCharBoundary s2 i := by
  obtain ⟨a, b, hab, ha⟩ := hb
  have hpa : a <+: s1 ++ s2 := ⟨b, hab.symm⟩
  have hps : s1 <+: s1 ++ s2 := List.prefix_append s1 s2
  rcases List.prefix_or_prefix_of_prefix hpa hps with hp | hp
  · obtain ⟨u, hu⟩ := hp
    have he : utf8Encode s1 = utf8Encode a ++ utf8Encode u := by
      rw [← hu, utf8Encode_append]
    have hlen := congrArg List.length he
    rw [hs1, List.length_append, ha] at hlen
    have hi : i = 0 := by omega
    exact ⟨[], s2, rfl, by simp [utf8Encode, hi]⟩
  · obtain ⟨t, ht⟩ := hp
    refine ⟨t, b, ?_, ?_⟩
    · have : s1 ++ s2 = s1 ++ (t ++ b) := by
        rw [hab, ← ht, List.append_assoc]
      exact List.append_cancel_left this
    · have he : utf8Encode a = utf8Encode s1 ++ utf8Encode t := by
        rw [← ht, utf8Encode_append]
      have hlen := congrArg List.length he
      rw [ha, List.length_append, hs1] at hlen
      omega

theorem splitBySize_lossless_aux (sz : Nat) (hsz : 0 < sz) :
    ∀ L : Nat, ∀ s : Str, (utf8Encode s).length ≤ L →
      (∀ j : Nat, 0 < j → j * sz < (utf8Encode s).length →
        IsCharBoundary s (j * sz)) →
      (split_by_size s sz).flatten = s := by
  intro L
  induction L with
  | zero =>
    intro s hle _
    have hnil : utf8Encode s = [] := List.length_eq_zero.mp (Nat.le_zero.mp hle)
    cases s with
    | nil => rfl
    | cons c cs => exact absurd hnil (utf8Encode_ne_nil _ (by simp))
  | succ M ih =>
    intro s hle hb
    by_cases hsmall : (utf8Encode s).length ≤ sz
    · by_cases hnil : utf8Encode s = []
      · cases s with
        | nil => rfl
        | cons c cs => exact absurd hnil (utf8Encode_ne_nil _ (by simp))
      · unfold split_by_size
        rw [chunkList_cons sz (by omega) _ hnil,
          List.take_of_length_le hsmall, List.drop_eq_nil_of_le hsmall]
        simp only [chunkList_nil, List.map_cons, List.map_nil,
          List.flatten_cons, List.flatten_nil, List.append_nil]
        exact decode_utf8Encode s
    · push_neg at hsmall
      have hb1 : IsCharBoundary s sz := by
        have := hb 1 (by omega) (by omega)
        simpa using this
      obtain ⟨s1, s2, rfl, hs1⟩ := hb1
      have henc : utf8Encode (s1 ++ s2) = utf8Encode s1 ++ utf8Encode s2 :=
        utf8Encode_append s1 s2
      have hlen2 : sz < sz + (utf8Encode s2).length := by
        rw [henc, List.length_append, hs1] at hsmall
        omega
      unfold split_by_size
      rw [henc, chunkList_cons sz (by omega) _
        (List.ne_nil_of_length_pos (by rw [List.length_append, hs1]; omega))]
      rw [List.take_left' hs1, List.drop_left' hs1]
      simp only [List.map_cons, List.flatten_cons]
      rw [decode_utf8Encode s1]
      congr 1
      have hM : (utf8Encode s2).length ≤ M := by
        rw [henc, List.length_append, hs1] at hle
        omega
      have hb2 : ∀ j : Nat, 0 < j → j * sz < (utf8Encode s2).length →
          IsCharBoundary s2 (j * sz) := by
        intro j hj hjlt
        apply isCharBoundary_shift s1 s2 sz _ hs1
        have he : (j + 1) * sz = sz + j * sz := by ring
        have hcb := hb (j + 1) (by omega) ?_
        · rwa [he] at hcb
        · rw [henc, List.length_append, hs1, he]
          exact Nat.add_lt_add_left hjlt sz
      have := ih s2 hM hb2
      simpa [split_by_size] using this

/-- **C3**: for every text `T` and positive `sz`, if every internal window
boundary of `split_by_size T sz` (the byte offsets `j * sz` below the total
byte length) falls on a character boundary of `T`'s UTF-8 encoding — so no
lossy replacement occurs — then concatenating the pieces in order yields
`T` exactly. -/
theorem C3_splitBySize_lossless (s : Str) (sz : Nat) (hsz : 0 < sz)
    (hb : ∀ j : Nat, 0 < j → j * sz < (utf8Encode s).length →
      IsCharBoundary s (j * sz)) :
    (split_by_size s sz).flatten = s :=
  splitBySize_lossless_aux sz hsz (utf8Encode s).length s (Nat.le_refl _) hb

/-- Witness for C3 at `s = "ab"`, `sz = 1` (every boundary is a character
boundary of this ASCII text). -/
theorem C3_witness :
    0 < 1 ∧ (split_by_size (str "ab") 1).flatten = str "ab" := by
  refine ⟨by decide, C3_splitBySize_lossless (str "ab") 1 (by decide) ?_⟩
  intro j hj hjlt
  have hlen : (utf8Encode (str "ab")).length = 2 := by decide
  rw [hlen] at hjlt
  have : j = 1 := by omega
  subst this
  exact ⟨['a'], ['b'], by decide, by decide⟩

/-! ## Claim C2: the threshold gate -/

/-- **C2**: for a stored document whose `totalLines` is strictly below
`2 * defaultLines` (the request's `default_lines` if present, else 250), a
`lines`-mode split yields exactly one piece — the entire text — and a
manifest with `skipped_reason = "file below minimum threshold for selected
mode"`; analogously for `size` mode with `totalBytes` and
`default_bytes` (default 200000). -/
theorem C2_threshold_gate (reg : Registry) (fid : Str) (meta : Doc)
    (params : SplitParams) (m : Str)
    (hfid : fid ≠ []) (hreg : lookupReg reg fid = some meta)
    (hm : (m = str "lines" ∧
        (totalLines meta.text : Int) < 2 * params.default_lines.getD 250) ∨
      (m = str "size" ∧
        (totalBytes meta.text : Int) < 2 * params.default_bytes.getD 200000)) :
    ∃ out, splitEndpoint reg (some fid) (some m) params = .ok out ∧
      out.pieces = [meta.text] ∧
      out.manifest.skipped_reason = some belowThresholdMsg ∧
      out.manifest.pieces = [(pad4 1, meta.text.length)] ∧
      out.archive = [(pieceName 1, EntryContent.text meta.text),
        (manifestName, EntryContent.json out.manifest)] := by
  unfold splitEndpoint
  dsimp only
  rw [if_neg hfid, hreg]
  dsimp only
  rcases hm with ⟨hm1, hlt⟩ | ⟨hm1, hlt⟩ <;> subst hm1
  · rw [if_neg (by decide)]
    simp only [MIN_MULTIPLIER, DEFAULT_LINES, DEFAULT_BYTES]
    rw [if_pos (Or.inl ⟨by trivial, hlt⟩)]
    exact ⟨_, rfl, rfl, rfl, rfl, rfl⟩
  · rw [if_neg (by decide)]
    simp only [MIN_MULTIPLIER, DEFAULT_LINES, DEFAULT_BYTES]
    rw [if_pos (Or.inr ⟨by trivial, hlt⟩)]
    exact ⟨_, rfl, rfl, rfl, rfl, rfl⟩

/-- Witness for C2: a 1-line, 2-byte document with default parameters. -/
theorem C2_witness :
    ∃ out, splitEndpoint
        [(str "cafebabe", ⟨str "a.txt", str ".txt", str "hi", str "00", 2⟩)]
        (some (str "cafebabe")) (some (str "lines")) {} = .ok out ∧
      out.pieces = [str "hi"] ∧
      out.manifest.skipped_reason = some belowThresholdMsg ∧
      out.manifest.pieces = [(pad4 1, (str "hi").length)] ∧
      out.archive = [(pieceName 1, EntryContent.text (str "hi")),
        (manifestName, EntryContent.json out.manifest)] :=
  C2_threshold_gate _ (str "cafebabe")
    ⟨str "a.txt", str ".txt", str "hi", str "00", 2⟩ {} (str "lines")
    (by decide) (by decide) (Or.inl ⟨rfl, by decide⟩)

/-! ## Claim C4: parameter validation (threshold check comes first) -/

/-- Counterexample to C4 as stated: for a stored below-threshold document,
a `lines`-mode request whose `lines` parameter is `-1` (not a positive
integer) does **not** fail with InvalidParameter — the handler checks the
threshold first and returns the skip archive. -/
theorem C4_counterexample :
    splitEndpoint
        [(str "cafebabe", ⟨str "a.txt", str ".txt", str "hi", str "00", 2⟩)]
        (some (str "cafebabe")) (some (str "lines")) { lines := some (-1) }
      ≠ Except.error SplitErr.invalidParameter := by decide

/-- **C4 (amended)**: the validation applies only when the threshold gate
does not skip: for a stored document, a `lines`-mode request whose `lines`
parameter is present and not positive fails with InvalidParameter provided
the document is not below the lines threshold; likewise for `size` mode
with the `bytes` parameter and the size threshold. -/
theorem C4_amended_invalid_parameter (reg : Registry) (fid : Str) (meta : Doc)
    (params : SplitParams) (hfid : fid ≠ [])
    (hreg : lookupReg reg fid = some meta) :
    (∀ n : Int, params.lines = some n → n ≤ 0 →
      ¬ ((totalLines meta.text : Int) < 2 * params.default_lines.getD 250) →
      splitEndpoint reg (some fid) (some (str "lines")) params
        = .error .invalidParameter) ∧
    (∀ sz : Int, params.bytes = some sz → sz ≤ 0 →
      ¬ ((totalBytes meta.text : Int) < 2 * params.default_bytes.getD 200000) →
      splitEndpoint reg (some fid) (some (str "size")) params
        = .error .invalidParameter) := by
  constructor
  · intro n hn hnpos hbig
    unfold splitEndpoint
    dsimp only
    rw [if_neg hfid, hreg]
    dsimp only
    rw [if_neg (by decide)]
    simp only [MIN_MULTIPLIER, DEFAULT_LINES, DEFAULT_BYTES]
    rw [if_neg (by
      rintro (⟨_, hlt⟩ | ⟨hms, _⟩)
      · exact hbig hlt
      · exact absurd hms (by decide))]
    rw [if_pos (by decide)]
    rw [hn]
    simp only [Option.getD_some]
    rw [if_pos hnpos]
  · intro sz hsz hszpos hbig
    unfold splitEndpoint
    dsimp only
    rw [if_neg hfid, hreg]
    dsimp only
    rw [if_neg (by decide)]
    simp only [MIN_MULTIPLIER, DEFAULT_LINES, DEFAULT_BYTES]
    rw [if_neg (by
      rintro (⟨hms, _⟩ | ⟨_, hlt⟩)
      · exact absurd hms (by decide)
      · exact hbig hlt)]
    rw [if_neg (by decide)]
    rw [hsz]
    simp only [Option.getD_some]
    rw [if_pos hszpos]

/-- Witness for the amended C4: `lines = bytes = 0` with
`default_lines = default_bytes = 0`, so the threshold never skips and both
modes report InvalidParameter. -/
theorem C4_amended_witness :
    (∀ n : Int, (⟨some 0, some 0, some 0, some 0⟩ : SplitParams).lines = some n →
      n ≤ 0 →
      ¬ ((totalLines (str "hi") : Int)
          < 2 * (⟨some 0, some 0, some 0, some 0⟩ : SplitParams).default_lines.getD 250) →
      splitEndpoint [(str "cafebabe", ⟨str "a.txt", str ".txt", str "hi", str "00", 2⟩)]
          (some (str "cafebabe")) (some (str "lines")) ⟨some 0, some 0, some 0, some 0⟩
        = .error .invalidParameter) ∧
    (∀ sz : Int, (⟨some 0, some 0, some 0, some 0⟩ : SplitParams).bytes = some sz →
      sz ≤ 0 →
      ¬ ((totalBytes (str "hi") : Int)
          < 2 * (⟨some 0, some 0, some 0, some 0⟩ : SplitParams).default_bytes.getD 200000) →
      splitEndpoint [(str "cafebabe", ⟨str "a.txt", str ".txt", str "hi", str "00", 2⟩)]
          (some (str "cafebabe")) (some (str "size")) ⟨some 0, some 0, some 0, some 0⟩
        = .error .invalidParameter) :=
  C4_amended_invalid_parameter
    [(str "cafebabe", ⟨str "a.txt", str ".txt", str "hi", str "00", 2⟩)]
    (str "cafebabe") ⟨str "a.txt", str ".txt", str "hi", str "00", 2⟩
    ⟨some 0, some 0, some 0, some 0⟩ (by decide) (by decide)

/-! ## Claim C8: manifest/archive consistency -/

theorem buildOutput_archive_names (meta : Doc) (m : Str) (params : SplitParams)
    (pieces : List Str) :
    (buildOutput meta m params pieces).archive.map Prod.fst
      = (List.range pieces.length).map (fun i => pieceName (i + 1))
        ++ [manifestName] := by
  unfold buildOutput
  dsimp only
  rw [List.map_append, List.map_map]
  congr 1
  have : (Prod.fst ∘ fun p : Nat × Str => (pieceName (p.1 + 1), EntryContent.text p.2))
      = (fun i => pieceName (i + 1)) ∘ Prod.fst := rfl
  rw [this, ← List.map_map, List.enum_map_fst]

theorem buildOutput_consistency (meta : Doc) (m : Str) (params : SplitParams)
    (pieces : List Str) :
    (buildOutput meta m params pieces).manifest.pieces.length
        = (buildOutput meta m params pieces).pieces.length ∧
    ∀ i : Nat, ∀ p : Str, (buildOutput meta m params pieces).pieces[i]? = some p →
      (buildOutput meta m params pieces).archive[i]?
          = some (pieceName (i + 1), EntryContent.text p) ∧
      (buildOutput meta m params pieces).manifest.pieces[i]?
          = some (pad4 (i + 1), p.length) := by
  unfold buildOutput
  dsimp only
  constructor
  · simp
  · intro i p hp
    have hi : i < pieces.length := by
      by_contra hc
      push_neg at hc
      rw [List.getElem?_eq_none hc] at hp
      cases hp
    constructor
    · rw [List.getElem?_append_left (by simp [hi])]
      rw [List.getElem?_map, List.getElem?_enum, hp]
      rfl
    · rw [List.getElem?_map, List.getElem?_enum, hp]
      rfl

/-- **C8**: every successful split produces an archive with exactly one
`piece_<4-digit index>.txt` entry per piece followed by one `manifest.json`
entry (in that order); the number of piece entries equals
`manifest.pieces.length`, and the `length_chars` recorded for each piece
equals the character length of that piece's text. -/
theorem C8_manifest_archive_consistency (reg : Registry)
    (file_id mode : Option Str) (params : SplitParams) (out : SplitOutput)
    (h : splitEndpoint reg file_id mode params = .ok out) :
    out.archive.map Prod.fst
      = (List.range out.pieces.length).map (fun i => pieceName (i + 1))
        ++ [manifestName] ∧
    out.manifest.pieces.length = out.pieces.length ∧
    ∀ i : Nat, ∀ p : Str, out.pieces[i]? = some p →
      out.archive[i]? = some (pieceName (i + 1), EntryContent.text p) ∧
      out.manifest.pieces[i]? = some (pad4 (i + 1), p.length) := by
  unfold splitEndpoint at h
  dsimp only at h
  repeat' split at h
  any_goals exact Except.noConfusion h
  · -- skip branch: single piece
    have hout := (Except.ok.inj h).symm
    subst hout
    refine ⟨by rfl, rfl, ?_⟩
    intro i p hp
    cases i with
    | zero =>
      cases Option.some.inj hp
      exact ⟨rfl, rfl⟩
    | succ n => simp at hp
  · -- lines branch
    have hout := (Except.ok.inj h).symm
    subst hout
    exact ⟨buildOutput_archive_names _ _ _ _,
      (buildOutput_consistency _ _ _ _).1, (buildOutput_consistency _ _ _ _).2⟩
  · -- size branch
    have hout := (Except.ok.inj h).symm
    subst hout
    exact ⟨buildOutput_archive_names _ _ _ _,
      (buildOutput_consistency _ _ _ _).1, (buildOutput_consistency _ _ _ _).2⟩

/-- Witness for C8: a concrete skip-path split. -/
theorem C8_witness :
    ∃ out, splitEndpoint
        [(str "cafebabe", ⟨str "a.txt", str ".txt", str "hi", str "00", 2⟩)]
        (some (str "cafebabe")) (some (str "lines")) {} = .ok out ∧
      (out.archive.map Prod.fst
          = (List.range out.pieces.length).map (fun i => pieceName (i + 1))
            ++ [manifestName] ∧
        out.manifest.pieces.length = out.pieces.length ∧
        ∀ i : Nat, ∀ p : Str, out.pieces[i]? = some p →
          out.archive[i]? = some (pieceName (i + 1), EntryContent.text p) ∧
          out.manifest.pieces[i]? = some (pad4 (i + 1), p.length)) :=
  ⟨_, rfl, C8_manifest_archive_consistency
    [(str "cafebabe", ⟨str "a.txt", str ".txt", str "hi", str "00", 2⟩)]
    (some (str "cafebabe")) (some (str "lines")) {} _ rfl⟩

/-! ## Claim C9: the threshold's totalLines vs the chunker's terminators -/

/-- Counterexample to C9 as stated: in `"a\rb"` the chunker's line split
sees one terminator (the `"\r"`), so the claimed count would be 2, but the
handler counts only `"\n"` characters and computes `totalLines = 1`. -/
theorem C9_counterexample :
    totalLines (str "a\rb") ≠ specLineTerminatorCount (str "a\rb") + 1 := by
  decide

theorem splitlinesAux_length_only_newlines (s : Str)
    (h : ∀ c ∈ s, isLineBreakChar c = true → c = '\n') :
    ∀ acc : Str,
      (splitlinesAux s acc).length
        = s.count '\n' + (if s = [] then (if acc = [] then 0 else 1)
            else if s.getLast? = some '\n' then 0 else 1) := by
  induction s with
  | nil => intro acc; by_cases ha : acc = [] <;> simp [splitlinesAux, ha]
  | cons c rest ih =>
    intro acc
    have hc : ∀ d ∈ rest, isLineBreakChar d = true → d = '\n' :=
      fun d hd => h d (List.mem_cons_of_mem c hd)
    by_cases hcn : c = '\n'
    · subst hcn
      rw [splitlinesAux_cons_newline]
      simp only [List.length_cons, List.count_cons]
      rw [ih hc []]
      cases rest with
      | nil => simp
      | cons d rest' =>
        rw [List.getLast?_cons_cons]
        split_ifs <;> simp_all
    · have hnb : isLineBreakChar c = false := by
        by_cases hb : isLineBreakChar c = true
        · exact absurd (h c (List.mem_cons_self c rest) hb) hcn
        · simpa using hb
      have hnr : c ≠ '\r' := by
        intro hcr
        subst hcr
        simp [isLineBreakChar] at hnb
      rw [splitlinesAux_cons_nonbreak c rest acc hnr hnb]
      rw [ih hc (c :: acc)]
      simp only [List.count_cons]
      cases rest with
      | nil => simp [hcn]
      | cons d rest' =>
        rw [List.getLast?_cons_cons]
        simp [hcn]

/-- **C9 (amended)**: `totalLines` equals the count of `'\n'` characters
plus one — LF is the only terminator the handler counts (not the full
`splitlines` terminator set, see the counterexample) — and this agrees
with the number of lines the chunker's split produces whenever the text is
non-empty, has no line-break characters other than LF, and does not end in
a terminator; `totalBytes` equals the UTF-8 byte length of the text. -/
theorem C9_amended_totals (t : Str)
    (h1 : ∀ c ∈ t, isLineBreakChar c = true → c = '\n')
    (h2 : t ≠ []) (h3 : t.getLast? ≠ some '\n') :
    totalLines t = t.count '\n' + 1 ∧
    totalLines t = (splitlinesKeepends t).length ∧
    totalBytes t = (utf8Encode t).length := by
  refine ⟨rfl, ?_, rfl⟩
  unfold splitlinesKeepends totalLines
  rw [splitlinesAux_length_only_newlines t h1 [], if_neg h2, if_neg h3]

/-- Witness for the amended C9 at `t = "a\nb"`. -/
theorem C9_amended_witness :
    ((∀ c ∈ str "a\nb", isLineBreakChar c = true → c = '\n') ∧
      str "a\nb" ≠ [] ∧ (str "a\nb").getLast? ≠ some '\n') ∧
    (totalLines (str "a\nb") = (str "a\nb").count '\n' + 1 ∧
      totalLines (str "a\nb") = (splitlinesKeepends (str "a\nb")).length ∧
      totalBytes (str "a\nb") = (utf8Encode (str "a\nb")).length) :=
  ⟨⟨by decide, by decide, by decide⟩,
    C9_amended_totals (str "a\nb") (by decide) (by decide) (by decide)⟩

/-! ## Claim C10: empty uploads are rejected -/

/-- **C10**: an upload whose body is empty fails with an error before
extraction is ever consulted (the statement holds for every injected
extractor) and leaves the registry unchanged, so an empty document can
never be stored or split. -/
theorem C10_empty_upload_rejected
    (extract : Str → List Nat → Except UploadErr Str)
    (filename : Str) (reg : Registry) :
    upload extract filename [] reg = (.error .emptyFile, reg) := by
  unfold upload
  dsimp only
  rw [if_pos rfl]

/-! ## Claim C7: idempotent ingestion -/

theorem countP_dictInsert (k : Str) (v : Doc) (reg : Registry)
    (h : reg.countP (fun p => p.1 == k) ≤ 1) :
    (dictInsert k v reg).countP (fun p => p.1 == k) = 1 := by
  unfold dictInsert
  split_ifs with hany
  · have hpos : 0 < reg.countP (fun p => p.1 == k) := by
      rw [List.countP_pos_iff]
      obtain ⟨p, hp, hpk⟩ := List.any_eq_true.mp hany
      exact ⟨p, hp, hpk⟩
    have hmap : (reg.map fun p => if p.1 = k then (k, v) else p).countP
        (fun p => p.1 == k) = reg.countP (fun p => p.1 == k) := by
      rw [List.countP_map]
      apply List.countP_congr
      intro p _
      by_cases hpk : p.1 = k <;> simp [hpk]
    rw [hmap]
    omega
  · rw [List.countP_append]
    have h0 : reg.countP (fun p => p.1 == k) = 0 := by
      rw [List.countP_eq_zero]
      intro a ha hak
      exact hany (List.any_eq_true.mpr ⟨a, ha, hak⟩)
    rw [h0]
    simp

/-- **C7**: uploading the same raw bytes twice yields the same document id —
the first 16 hex characters of the SHA-256 digest of the bytes — and leaves
the registry with exactly one entry for that id (the second put overwrites
in place), provided the registry was consistent (at most one entry for that
id) to begin with. -/
theorem C7_idempotent_ingestion
    (extract : Str → List Nat → Except UploadErr Str)
    (filename : Str) (data : List Nat) (reg : Registry)
    (resp1 : UploadResp) (reg1 : Registry)
    (hcount : reg.countP (fun p => p.1 == (sha256_bytes data).take 16) ≤ 1)
    (h1 : upload extract filename data reg = (.ok resp1, reg1)) :
    ∃ resp2 reg2, upload extract filename data reg1 = (.ok resp2, reg2) ∧
      resp2.file_id = resp1.file_id ∧
      resp1.file_id = (sha256_bytes data).take 16 ∧
      reg2.countP (fun p => p.1 == (sha256_bytes data).take 16) = 1 := by
  unfold upload at h1 ⊢
  dsimp only at h1 ⊢
  split at h1
  next hdata => exact absurd (congrArg Prod.fst h1) (by simp)
  next hne =>
    split at h1
    next e heq => exact absurd (congrArg Prod.fst h1) (by simp)
    next u heq =>
      split at h1
      next e heq2 => exact absurd (congrArg Prod.fst h1) (by simp)
      next text heq2 =>
        rw [Prod.mk.injEq] at h1
        obtain ⟨hresp, hreg⟩ := h1
        have hresp' := Except.ok.inj hresp
        subst hreg
        rw [if_neg hne]
        refine ⟨_, _, rfl, ?_, ?_, ?_⟩
        · rw [← hresp']
        · rw [← hresp']
        · apply countP_dictInsert
          exact le_of_eq (countP_dictInsert _ _ _ hcount)

/-- Witness for C7: uploading the byte `0x61` (`"a"`) twice into an empty
registry. -/
theorem C7_witness :
    ∃ resp2 reg2,
      upload (fun _ _ => .error .parseFailure) (str "a.txt") [0x61]
          (dictInsert ((sha256_bytes [0x61]).take 16)
            ⟨str "a.txt", str ".txt", ['a'], sha256_bytes [0x61], 1⟩ [])
        = (.ok resp2, reg2) ∧
      resp2.file_id
        = (UploadResp.mk ((sha256_bytes [0x61]).take 16) (str "a.txt")
            (str ".txt") 1).file_id ∧
      (UploadResp.mk ((sha256_bytes [0x61]).take 16) (str "a.txt")
          (str ".txt") 1).file_id = (sha256_bytes [0x61]).take 16 ∧
      reg2.countP (fun p => p.1 == (sha256_bytes [0x61]).take 16) = 1 :=
  C7_idempotent_ingestion (fun _ _ => .error .parseFailure) (str "a.txt")
    [0x61] [] (UploadResp.mk ((sha256_bytes [0x61]).take 16) (str "a.txt")
      (str ".txt") 1)
    (dictInsert ((sha256_bytes [0x61]).take 16)
      ⟨str "a.txt", str ".txt", ['a'], sha256_bytes [0x61], 1⟩ [])
    (Nat.zero_le 1) rfl
